import Mathlib

/-
Verification development for the ideas and posts CRUD backend.
The Python storage and router modules are shallowly embedded as pure
Lean functions on explicit document values: each storage method of the
form load / mutate-in-memory / save is a function from a document to a
document (plus the HTTP-level result), a 404 outcome is the none case
of an Option, and the JSON dictionaries the application itself writes
are records with one field per key.

Modelling conventions:
- Python machine integers are unbounded, so counters are Int or Nat.
- Python datetime values produced by datetime.utcnow().isoformat()
  are represented by their ISO-8601 strings; for the single uniform
  format this application writes, comparison of parsed datetimes
  agrees with lexicographic comparison of the strings.
- A JSON value that may be null is an Option; a dictionary key that
  may be missing altogether is a further Option layer (used for the
  published_at key, where dict.get distinguishes a missing key from a
  key bound to null).
- Fresh uuid4 identifiers and current timestamps are passed in as
  explicit arguments.
-/

/-
Generic first-match list operations. They mirror the Python idiom
used throughout the storage modules:
  idx = next((i for i, x in enumerate(xs) if p(x)), None)
followed by reading xs[idx], xs.pop(idx), or xs[idx] = v.
-/

def findFirst {α : Type} (p : α → Bool) : List α → Option α
  | [] => none
  | x :: xs => if p x then some x else findFirst p xs

/- Find the first element satisfying p, remove it, return it together
with the remaining list (the Python find-index-then-pop pattern). -/
def popFirst {α : Type} (p : α → Bool) : List α → Option (α × List α)
  | [] => none
  | x :: xs =>
    if p x then some (x, xs)
    else
      match popFirst p xs with
      | none => none
      | some r => some (r.1, x :: r.2)

/- Find the first element satisfying p and replace it by f of it,
returning (old value, new value, new list); the Python
find-index-then-assign pattern. -/
def updateFirst {α : Type} (p : α → Bool) (f : α → α) : List α → Option (α × α × List α)
  | [] => none
  | x :: xs =>
    if p x then some (x, f x, f x :: xs)
    else
      match updateFirst p f xs with
      | none => none
      | some r => some (r.1, r.2.1, x :: r.2.2)

/- Number of elements satisfying p; used for the len(...) of Python
list comprehensions that filter by a predicate. -/
def cntP {α : Type} (p : α → Bool) (l : List α) : Nat := (l.filter p).length

/- Python substring membership (the in operator on str), on the
underlying character lists. -/
def startsWithList : List Char → List Char → Bool
  | [], _ => true
  | _ :: _, [] => false
  | a :: as, b :: bs => a == b && startsWithList as bs

def containsSub (needle : List Char) : List Char → Bool
  | [] => needle.isEmpty
  | c :: rest => startsWithList needle (c :: rest) || containsSub needle rest

def pyIn (needle hay : String) : Bool := containsSub needle.data hay.data

/- Python slicing s[:n] and len(s) on str, by code points. -/
def pySlice (s : String) (n : Nat) : String := String.mk (s.data.take n)

def pyLen (s : String) : Nat := s.data.length

/-
Data model of the ideas service (services/ideas). The records carry
exactly the keys the router writes into the persisted document.
-/

structure Like where
  id : String
  user_id : String
  idea_id : String
  created_at : String
deriving DecidableEq

structure Idea where
  id : String
  title : String
  description : String
  author : String
  date : String
  likes : Int
  tags : List String
  userLiked : Bool
deriving DecidableEq

structure IdeaComment where
  id : String
  content : String
  author : String
  idea_id : String
  date : String
deriving DecidableEq

structure IdeasDoc where
  ideas : List Idea
  comments : List IdeaComment
  likes : List Like
  tags : List String
deriving DecidableEq

/- The empty-collections ideas document written by initialize_file. -/
def emptyIdeasDoc : IdeasDoc := ⟨[], [], [], []⟩

/- The enriched idea dictionary returned by storage methods:
the stored fields spread together with an overriding userLiked key and
a comments count. -/
structure IdeaView where
  idea : Idea
  userLiked : Bool
  comments : Nat
deriving DecidableEq

/- Comment count for one idea: the len of the comprehension
[c for c in comments if c.get("idea_id") == idea_id]. -/
def ideaCommentCnt (cs : List IdeaComment) (iid : String) : Nat :=
  cntP (fun c => c.idea_id == iid) cs

/- Number of like rows for one idea. -/
def likeCnt (ls : List Like) (iid : String) : Nat :=
  cntP (fun l => l.idea_id == iid) ls

/- Number of like rows for one (idea, user) pair. -/
def pairCnt (ls : List Like) (iid uid : String) : Nat :=
  cntP (fun l => l.idea_id == iid && l.user_id == uid) ls

/- POST /ideas: the router builds the full idea dictionary (fresh id,
formatted date, zero likes, userLiked false) and create_idea appends
it; all keys are present so the defaulting branches of create_idea do
not fire. -/
def routerCreateIdea (d : IdeasDoc) (id title description author now : String)
    (tags : List String) : IdeasDoc × IdeaView :=
  let new : Idea :=
    { id := id, title := title, description := description, author := author,
      date := now, likes := 0, tags := tags, userLiked := false }
  ({ d with ideas := d.ideas ++ [new] }, { idea := new, userLiked := false, comments := 0 })

/- PUT /ideas/id update payload: each optional field distinguishes
absent (none) from explicitly supplied (some, possibly empty). -/
structure IdeaUpdate where
  title : Option String
  description : Option String
  tags : Option (List String)
deriving DecidableEq

/- The router collects the non-None fields into an updates dictionary
and update_idea merges it over the stored record
(updated = the stored dict spread under the updates dict), which is
this field-wise application. -/
def applyIdeaUpdate (u : IdeaUpdate) (i : Idea) : Idea :=
  { i with
    title := u.title.getD i.title,
    description := u.description.getD i.description,
    tags := u.tags.getD i.tags }

/- PUT /ideas/id. The router first checks existence via get_idea and
then calls update_idea, which searches the same list again; both
lookups find an idea exactly when one with this id is present, so the
double lookup collapses to the single updateFirst. Returns the new
document and the updated stored idea, or none for the 404 case. -/
def updateIdea (d : IdeasDoc) (iid : String) (u : IdeaUpdate) :
    Option (IdeasDoc × Idea) :=
  match updateFirst (fun i => i.id == iid) (applyIdeaUpdate u) d.ideas with
  | none => none
  | some r => some ({ d with ideas := r.2.2 }, r.2.1)

/- DELETE /ideas/id at the storage level: pop the first idea with this
id and drop every comment and like referencing the id. When the idea
is missing, delete_idea returns False without calling save_data, so
the persisted document is the unchanged input. -/
def deleteIdea (d : IdeasDoc) (iid : String) : IdeasDoc × Bool :=
  match popFirst (fun i => i.id == iid) d.ideas with
  | none => (d, false)
  | some r =>
    ({ d with
        ideas := r.2,
        comments := d.comments.filter (fun c => !(c.idea_id == iid)),
        likes := d.likes.filter (fun l => !(l.idea_id == iid)) }, true)

/- PUT /ideas/id/like at the storage level. The Python code first
looks up the idea index (returning None when absent) and then the like
row index; here the like row lookup is hoisted outside the idea
branch, which returns the same value on every input because the
lookup is pure and the idea-missing case discards it. lid and now are
the fresh uuid4 and timestamp for a newly inserted like row. -/
def toggleLike (d : IdeasDoc) (iid uid lid now : String) :
    Option (IdeasDoc × IdeaView) :=
  match popFirst (fun l => l.idea_id == iid && l.user_id == uid) d.likes with
  | some r =>
    match updateFirst (fun i => i.id == iid)
        (fun i => { i with likes := max 0 (i.likes - 1) }) d.ideas with
    | none => none
    | some s =>
      some ({ d with ideas := s.2.2, likes := r.2 },
        { idea := s.2.1, userLiked := false, comments := ideaCommentCnt d.comments iid })
  | none =>
    match updateFirst (fun i => i.id == iid)
        (fun i => { i with likes := i.likes + 1 }) d.ideas with
    | none => none
    | some s =>
      let newLike : Like := { id := lid, user_id := uid, idea_id := iid, created_at := now }
      some ({ d with ideas := s.2.2, likes := d.likes ++ [newLike] },
        { idea := s.2.1, userLiked := true, comments := ideaCommentCnt d.comments iid })

/- PUT /ideas/id/like at the router level: the user_id query
parameter defaults to the literal string anonymous when absent. -/
def routerToggleLike (d : IdeasDoc) (iid : String) (user_id : Option String)
    (lid now : String) : Option (IdeasDoc × IdeaView) :=
  toggleLike d iid (user_id.getD "anonymous") lid now

/- POST /ideas/id/comments: the router builds the comment dictionary
(fresh id, formatted date) and add_comment appends it when the idea
exists. -/
def addIdeaComment (d : IdeasDoc) (iid cid content author now : String) :
    Option (IdeasDoc × IdeaComment) :=
  match findFirst (fun i => i.id == iid) d.ideas with
  | none => none
  | some _ =>
    let c : IdeaComment :=
      { id := cid, content := content, author := author, idea_id := iid, date := now }
    some ({ d with comments := d.comments ++ [c] }, c)

/-
Data model of the posts service (services/posts). published_at is the
one key where the code distinguishes a missing dictionary key from a
key bound to null: the outer Option is key presence, the inner Option
is the nullable value. The router always writes the key (null for an
unpublished post).
-/

structure Post where
  id : String
  title : String
  content : String
  excerpt : Option String
  author : String
  created_at : String
  updated_at : String
  published_at : Option (Option String)
  is_published : Bool
  tags : List String
deriving DecidableEq

structure PostComment where
  id : String
  content : String
  author : String
  post_id : String
  created_at : String
deriving DecidableEq

structure PostsDoc where
  posts : List Post
  post_comments : List PostComment
  tags : List String
deriving DecidableEq

/- The empty-collections posts document written by initialize_file. -/
def emptyPostsDoc : PostsDoc := ⟨[], [], []⟩

/- A post dictionary enriched with its comments_count, as returned by
get_posts, create_post and update_post. -/
structure PostView where
  post : Post
  comments_count : Nat
deriving DecidableEq

def postCommentCnt (cs : List PostComment) (pid : String) : Nat :=
  cntP (fun c => c.post_id == pid) cs

/- The excerpt derivation shared by create_post and update_post:
content[:150], with "..." appended when len(content) > 150. -/
def deriveExcerpt (c : String) : String :=
  if pyLen c > 150 then pySlice c 150 ++ "..." else pySlice c 150

/- POST /posts: the router derives the excerpt when the supplied one
is falsy (absent or empty) and the content is truthy, stamps
created_at and updated_at, and sets published_at to the timestamp or
to null depending on is_published; create_post appends the dictionary
unchanged. -/
def routerCreatePost (d : PostsDoc) (pid now title content : String)
    (excerpt : Option String) (author : String) (tags : List String)
    (is_pub : Bool) : PostsDoc × PostView :=
  let e : Option String :=
    if excerpt.getD "" == "" && !(content == "") then some (deriveExcerpt content)
    else excerpt
  let p : Post :=
    { id := pid, title := title, content := content, excerpt := e, author := author,
      created_at := now, updated_at := now,
      published_at := some (if is_pub then some now else none),
      is_published := is_pub, tags := tags }
  ({ d with posts := d.posts ++ [p] }, { post := p, comments_count := 0 })

/- PUT /posts/id update payload. -/
structure PostUpdate where
  title : Option String
  content : Option String
  excerpt : Option String
  tags : Option (List String)
  is_published : Option Bool
deriving DecidableEq

/- The updates dictionary the router builds from the payload and the
previously fetched post, merged over the stored record by
update_post. stored is the record fetched before the merge; the
excerpt is re-derived when content is supplied without an explicit
excerpt, and published_at is stamped when is_published is supplied as
true while the stored post has is_published false. updated_at is
stamped unconditionally. -/
def applyPostUpdate (stored : Post) (u : PostUpdate) (now : String) : Post :=
  let p := stored
  let p := match u.title with
    | some t => { p with title := t }
    | none => p
  let p := match u.content with
    | some c =>
      let q := { p with content := c }
      match u.excerpt with
      | none => { q with excerpt := some (deriveExcerpt c) }
      | some _ => q
    | none => p
  let p := match u.excerpt with
    | some e => { p with excerpt := some e }
    | none => p
  let p := match u.tags with
    | some ts => { p with tags := ts }
    | none => p
  let p := match u.is_published with
    | some b =>
      let q := if b && !stored.is_published
        then { p with published_at := some (some now) } else p
      { q with is_published := b }
    | none => p
  { p with updated_at := now }

/- PUT /posts/id. The router fetches the post (404 when absent),
builds the updates dictionary from it, and update_post merges the
updates over the first post with this id, which is the same record
the router fetched; the two lookups collapse to one updateFirst. -/
def updatePost (d : PostsDoc) (pid : String) (u : PostUpdate) (now : String) :
    Option (PostsDoc × Post) :=
  match updateFirst (fun p => p.id == pid) (fun p => applyPostUpdate p u now) d.posts with
  | none => none
  | some r => some ({ d with posts := r.2.2 }, r.2.1)

/- get_post at the storage level: the post together with its comment
list and count; no published check here. -/
structure PostDetailView where
  post : Post
  comments : List PostComment
  comments_count : Nat
deriving DecidableEq

def storageGetPost (d : PostsDoc) (pid : String) : Option PostDetailView :=
  match findFirst (fun p => p.id == pid) d.posts with
  | none => none
  | some p =>
    let cs := d.post_comments.filter (fun c => c.post_id == pid)
    some { post := p, comments := cs, comments_count := cs.length }

/- GET /posts/id: a found but unpublished post is refused as 404. -/
def routerGetPost (d : PostsDoc) (pid : String) : Option PostDetailView :=
  match storageGetPost d pid with
  | none => none
  | some v => if !v.post.is_published then none else some v

/- delete_post at the storage level: pop the first post with this id
and drop its comments; False without saving when absent. -/
def deletePost (d : PostsDoc) (pid : String) : PostsDoc × Bool :=
  match popFirst (fun p => p.id == pid) d.posts with
  | none => (d, false)
  | some r =>
    ({ d with
        posts := r.2,
        post_comments := d.post_comments.filter (fun c => !(c.post_id == pid)) }, true)

/- DELETE /posts/id: the router fetches the post first (404 when
absent, with no published check) and then calls delete_post. -/
def routerDeletePost (d : PostsDoc) (pid : String) : Option PostsDoc :=
  match storageGetPost d pid with
  | none => none
  | some _ =>
    let r := deletePost d pid
    if r.2 then some r.1 else none

/- POST /posts/id/comments: 404 when the post is absent or
unpublished; otherwise the router builds the comment dictionary and
add_comment appends it (its own existence re-check succeeds). -/
def routerAddPostComment (d : PostsDoc) (pid content author cid now : String) :
    Option (PostsDoc × PostComment) :=
  match storageGetPost d pid with
  | none => none
  | some v =>
    if !v.post.is_published then none
    else
      let c : PostComment :=
        { id := cid, content := content, author := author, post_id := pid, created_at := now }
      some ({ d with post_comments := d.post_comments ++ [c] }, c)

/-
get_posts: filter, decorate with comment counts, sort by the
published date key, slice. The sort key is
  x.get("published_at", x.get("created_at", "2000-01-01T00:00:00"))
so the created_at fallback applies only when the published_at KEY is
missing; a key bound to null yields None, and
datetime.fromisoformat(None) raises TypeError, modelled as the error
case. In the records the created_at key is always present, so the
innermost literal default never fires.
-/

def pySortKeyVal (p : Post) : Option String :=
  match p.published_at with
  | none => some p.created_at
  | some v => v

def pyFromIso : Option String → Except Unit String
  | none => Except.error ()
  | some s => Except.ok s

/- Compute the sort key of every element in list order; the first
failing key computation aborts the whole sort call. -/
def keyedViews : List PostView → Except Unit (List (String × PostView))
  | [] => Except.ok []
  | v :: vs =>
    match pyFromIso (pySortKeyVal v.post) with
    | Except.error e => Except.error e
    | Except.ok k =>
      match keyedViews vs with
      | Except.error e => Except.error e
      | Except.ok rest => Except.ok ((k, v) :: rest)

/- Stable descending sort on the string keys, matching the stable
Python list.sort with reverse=True: a later element overtakes an
earlier one only when its key is strictly greater. -/
def insertKeyDesc (x : String × PostView) : List (String × PostView) → List (String × PostView)
  | [] => [x]
  | y :: ys => if y.1 < x.1 then x :: y :: ys else y :: insertKeyDesc x ys

def sortKeyDesc (l : List (String × PostView)) : List (String × PostView) :=
  l.foldl (fun acc x => insertKeyDesc x acc) []

/- The filter of one post: the published_only gate, the case
insensitive substring search over title, content and a non-null
excerpt, and the tag membership test; an empty search or tag string
is falsy in Python and disables its filter. -/
def postPasses (p : Post) (search tag : Option String) (published_only : Bool) : Bool :=
  (!(published_only && !p.is_published)) &&
  (match search with
   | none => true
   | some s =>
     if s == "" then true
     else
       let t := s.toLower
       pyIn t p.title.toLower || pyIn t p.content.toLower ||
         (match p.excerpt with
          | none => false
          | some e => pyIn t e.toLower)) &&
  (match tag with
   | none => true
   | some tg => if tg == "" then true else p.tags.contains tg)

/- GET /posts: returns the sliced sorted list, or the error case when
a sort key computation raises. -/
def getPosts (d : PostsDoc) (skip limit : Nat) (search tag : Option String)
    (published_only : Bool) : Except Unit (List PostView) :=
  match keyedViews ((d.posts.filter (fun p => postPasses p search tag published_only)).map
      (fun p => PostView.mk p (postCommentCnt d.post_comments p.id))) with
  | Except.error e => Except.error e
  | Except.ok pairs =>
    Except.ok ((((sortKeyDesc pairs).map Prod.snd).drop skip).take limit)

/-
The file store load path shared by both services. The persisted file
is an Option String (none when the file is missing); decode and
encode stand for json.load and json.dump on the document type. The
except clause catches exactly FileNotFoundError and JSONDecodeError:
in both cases initialize_file rewrites the file with the encoded
empty document and the empty document is returned, so load_data is a
total function and never propagates those errors to its caller. -/
def loadData {δ : Type} (decode : String → Option δ) (encode : δ → String)
    (empty : δ) : Option String → Option String × δ
  | none => (some (encode empty), empty)
  | some s =>
    match decode s with
    | some d => (some s, d)
    | none => (some (encode empty), empty)

/- load_data of the ideas service. -/
def loadIdeasData (decode : String → Option IdeasDoc) (encode : IdeasDoc → String)
    (file : Option String) : Option String × IdeasDoc :=
  loadData decode encode emptyIdeasDoc file

/- load_data of the posts service. -/
def loadPostsData (decode : String → Option PostsDoc) (encode : PostsDoc → String)
    (file : Option String) : Option String × PostsDoc :=
  loadData decode encode emptyPostsDoc file

/-
Invariant of the ideas document maintained by the router operations,
and the documents reachable from the empty document through them.
-/

/- The like bookkeeping invariant: idea identifiers are pairwise
distinct (uuid4 freshness), at most one like row exists per
(idea, user) pair, each likes counter equals the number of like rows
of its idea, and every like row references a present idea. -/
structure IdeasInv (d : IdeasDoc) : Prop where
  nodupIds : (d.ideas.map Idea.id).Nodup
  pairUnique : ∀ iid uid, pairCnt d.likes iid uid ≤ 1
  counterEq : ∀ i ∈ d.ideas, i.likes = (likeCnt d.likes i.id : Int)
  likeRef : ∀ l ∈ d.likes, ∃ i ∈ d.ideas, i.id = l.idea_id

/- Documents reachable from the empty document through the ideas
endpoints. The create step carries the freshness of the generated
uuid4 identifier as an explicit side condition. -/
inductive ReachIdeas : IdeasDoc → Prop where
  | empty : ReachIdeas emptyIdeasDoc
  | create (d : IdeasDoc) (id title description author now : String)
      (tags : List String) :
      ReachIdeas d → (∀ i ∈ d.ideas, i.id ≠ id) →
      ReachIdeas (routerCreateIdea d id title description author now tags).1
  | update (d : IdeasDoc) (iid : String) (u : IdeaUpdate) (d2 : IdeasDoc) (v : Idea) :
      ReachIdeas d → updateIdea d iid u = some (d2, v) → ReachIdeas d2
  | del (d : IdeasDoc) (iid : String) :
      ReachIdeas d → ReachIdeas (deleteIdea d iid).1
  | toggle (d : IdeasDoc) (iid uid lid now : String) (d2 : IdeasDoc) (v : IdeaView) :
      ReachIdeas d → toggleLike d iid uid lid now = some (d2, v) → ReachIdeas d2
  | comment (d : IdeasDoc) (iid cid content author now : String)
      (d2 : IdeasDoc) (c : IdeaComment) :
      ReachIdeas d → addIdeaComment d iid cid content author now = some (d2, c) →
      ReachIdeas d2

/-
Concrete inputs used by the closed instantiations of the theorems
below.
-/

/- A reachable one-idea document. -/
def wIdeasDoc : IdeasDoc :=
  (routerCreateIdea emptyIdeasDoc "i1" "T" "D" "A" "January 01, 2024" ["go"]).1

def dummyIdea : Idea :=
  { id := "", title := "", description := "", author := "", date := "",
    likes := 0, tags := [], userLiked := false }

def dummyIdeaView : IdeaView := { idea := dummyIdea, userLiked := false, comments := 0 }

/- The stored idea record of the one-idea document. -/
def wIdea0 : Idea :=
  (findFirst (fun i => i.id == "i1") wIdeasDoc.ideas).getD dummyIdea

/- The results of toggling the like of user u1, then toggling again. -/
def wToggle1 : IdeasDoc × IdeaView :=
  (toggleLike wIdeasDoc "i1" "u1" "l1" "2024-01-02T00:00:00").getD (emptyIdeasDoc, dummyIdeaView)

def wToggle2 : IdeasDoc × IdeaView :=
  (toggleLike wToggle1.1 "i1" "u1" "l2" "2024-01-03T00:00:00").getD (emptyIdeasDoc, dummyIdeaView)

/- The results of the parameterless like endpoint, applied twice. -/
def wAnon1 : IdeasDoc × IdeaView :=
  (routerToggleLike wIdeasDoc "i1" none "l1" "2024-01-02T00:00:00").getD (emptyIdeasDoc, dummyIdeaView)

def wAnon2 : IdeasDoc × IdeaView :=
  (routerToggleLike wAnon1.1 "i1" none "l2" "2024-01-03T00:00:00").getD (emptyIdeasDoc, dummyIdeaView)

def dummyPost : Post :=
  { id := "", title := "", content := "", excerpt := none, author := "",
    created_at := "", updated_at := "", published_at := none,
    is_published := false, tags := [] }

/- A one-post document holding an unpublished post, as the router
creates it: the published_at key is present and bound to null. -/
def wDraftDoc : PostsDoc :=
  (routerCreatePost emptyPostsDoc "p1" "2024-01-01T00:00:00" "draft" "hello"
    none "A" [] false).1

/- The stored post record of the draft document. -/
def wDraftPost : Post :=
  (findFirst (fun p => p.id == "p1") wDraftDoc.posts).getD dummyPost

/- A one-post document holding a post published at creation time. -/
def wPubDoc : PostsDoc :=
  (routerCreatePost emptyPostsDoc "p1" "2024-01-01T00:00:00" "t" "c"
    none "A" [] true).1

/- A payload that only flips is_published. -/
def pubUpd (b : Bool) : PostUpdate :=
  { title := none, content := none, excerpt := none, tags := none, is_published := some b }

/- Unpublish at T2, then publish again at T3, and observe the
resulting published_at value. -/
def wRepublish : Option Post :=
  (updatePost wPubDoc "p1" (pubUpd false) "2024-01-02T00:00:00").bind
    (fun r => (updatePost r.1 "p1" (pubUpd true) "2024-01-03T00:00:00").map
      (fun s => s.2))

/- A content-only update of the draft document, and its result. -/
def wContentUpd : PostUpdate :=
  { title := none, content := some "hi", excerpt := none, tags := none, is_published := none }

def wContentRes : PostsDoc × Post :=
  (updatePost wDraftDoc "p1" wContentUpd "2024-01-02T00:00:00").getD (emptyPostsDoc, dummyPost)

/- A title-only idea update, and its result. -/
def wIdeaUpd : IdeaUpdate := { title := some "", description := none, tags := none }

def wIdeaUpdRes : IdeasDoc × Idea :=
  (updateIdea wIdeasDoc "i1" wIdeaUpd).getD (emptyIdeasDoc, dummyIdea)

/-
Generic lemmas about the first-match operations and the counting
function.
-/

theorem findFirst_eq_none {α : Type} {p : α → Bool} {l : List α} :
    findFirst p l = none ↔ ∀ x ∈ l, p x = false := by
  induction l with
  | nil => simp [findFirst]
  | cons x xs ih => cases hx : p x <;> simp [findFirst, hx, ih]

theorem findFirst_append_of_none {α : Type} {p : α → Bool} {l1 l2 : List α}
    (h : ∀ x ∈ l1, p x = false) :
    findFirst p (l1 ++ l2) = findFirst p l2 := by
  induction l1 with
  | nil => simp
  | cons x xs ih =>
    have hx := h x (by simp)
    simp only [List.cons_append, findFirst, hx]
    exact ih (fun y hy => h y (by simp [hy]))

theorem findFirst_split {α : Type} {p : α → Bool} {l1 l2 : List α} {x : α}
    (h : ∀ y ∈ l1, p y = false) (hx : p x = true) :
    findFirst p (l1 ++ x :: l2) = some x := by
  rw [findFirst_append_of_none h]
  simp [findFirst, hx]

theorem popFirst_eq_none {α : Type} {p : α → Bool} {l : List α} :
    popFirst p l = none ↔ ∀ x ∈ l, p x = false := by
  induction l with
  | nil => simp [popFirst]
  | cons x xs ih =>
    cases hx : p x with
    | true => simp [popFirst, hx]
    | false =>
      cases hr : popFirst p xs <;> simp [popFirst, hx, hr, ← ih]

theorem popFirst_eq_some {α : Type} {p : α → Bool} {l t : List α} {x : α}
    (h : popFirst p l = some (x, t)) :
    p x = true ∧ ∃ l1 l2, l = l1 ++ x :: l2 ∧ t = l1 ++ l2 ∧ ∀ y ∈ l1, p y = false := by
  induction l generalizing t with
  | nil => simp [popFirst] at h
  | cons a as ih =>
    cases ha : p a with
    | true =>
      simp [popFirst, ha] at h
      obtain ⟨h1, h2⟩ := h
      subst h1; subst h2
      exact ⟨ha, [], as, by simp⟩
    | false =>
      cases hr : popFirst p as with
      | none => simp [popFirst, ha, hr] at h
      | some r =>
        obtain ⟨y, ys⟩ := r
        simp [popFirst, ha, hr] at h
        obtain ⟨h1, h2⟩ := h
        subst h1
        obtain ⟨hp, l1, l2, hl, ht, hpre⟩ := ih hr
        refine ⟨hp, a :: l1, l2, by simp [hl], ?_, ?_⟩
        · rw [← h2, ht]; simp
        · intro y hy
          rcases List.mem_cons.mp hy with h | h
          · rw [h]; exact ha
          · exact hpre y h

theorem updateFirst_eq_none {α : Type} {p : α → Bool} {f : α → α} {l : List α} :
    updateFirst p f l = none ↔ ∀ x ∈ l, p x = false := by
  induction l with
  | nil => simp [updateFirst]
  | cons x xs ih =>
    cases hx : p x with
    | true => simp [updateFirst, hx]
    | false =>
      cases hr : updateFirst p f xs <;> simp [updateFirst, hx, hr, ← ih]

theorem updateFirst_eq_some {α : Type} {p : α → Bool} {f : α → α} {l t : List α} {a b : α}
    (h : updateFirst p f l = some (a, b, t)) :
    p a = true ∧ b = f a ∧
      ∃ l1 l2, l = l1 ++ a :: l2 ∧ t = l1 ++ f a :: l2 ∧ ∀ y ∈ l1, p y = false := by
  induction l generalizing t with
  | nil => simp [updateFirst] at h
  | cons x xs ih =>
    cases hx : p x with
    | true =>
      simp [updateFirst, hx] at h
      obtain ⟨h1, h2, h3⟩ := h
      subst h1; subst h2; subst h3
      exact ⟨hx, rfl, [], xs, by simp⟩
    | false =>
      cases hr : updateFirst p f xs with
      | none => simp [updateFirst, hx, hr] at h
      | some r =>
        obtain ⟨y, z, ys⟩ := r
        simp [updateFirst, hx, hr] at h
        obtain ⟨h1, h2, h3⟩ := h
        subst h1; subst h2
        obtain ⟨hp, hb, l1, l2, hl, ht, hpre⟩ := ih hr
        refine ⟨hp, hb, x :: l1, l2, by simp [hl], ?_, ?_⟩
        · rw [← h3, ht]; simp
        · intro y hy
          rcases List.mem_cons.mp hy with h | h
          · rw [h]; exact hx
          · exact hpre y h

theorem updateFirst_isSome {α : Type} {p : α → Bool} {f : α → α} {l : List α} {x : α}
    (hx : x ∈ l) (hp : p x = true) : (updateFirst p f l).isSome := by
  cases hr : updateFirst p f l with
  | some r => rfl
  | none =>
    rw [updateFirst_eq_none] at hr
    rw [hr x hx] at hp
    cases hp

theorem popFirst_isSome {α : Type} {p : α → Bool} {l : List α} {x : α}
    (hx : x ∈ l) (hp : p x = true) : (popFirst p l).isSome := by
  cases hr : popFirst p l with
  | some r => rfl
  | none =>
    rw [popFirst_eq_none] at hr
    rw [hr x hx] at hp
    cases hp

theorem cntP_nil {α : Type} {p : α → Bool} : cntP p [] = 0 := rfl

theorem cntP_cons {α : Type} {p : α → Bool} {x : α} {l : List α} :
    cntP p (x :: l) = cntP p l + (if p x then 1 else 0) := by
  cases hx : p x <;> simp [cntP, List.filter_cons, hx]

theorem cntP_append {α : Type} {p : α → Bool} {l1 l2 : List α} :
    cntP p (l1 ++ l2) = cntP p l1 + cntP p l2 := by
  simp [cntP, List.filter_append]

theorem cntP_eq_zero {α : Type} {p : α → Bool} {l : List α} :
    cntP p l = 0 ↔ ∀ x ∈ l, p x = false := by
  induction l with
  | nil => simp [cntP]
  | cons x xs ih =>
    cases hx : p x <;> simp [cntP_cons, hx, ← ih]

theorem cntP_pos {α : Type} {p : α → Bool} {l : List α} {x : α}
    (hx : x ∈ l) (hp : p x = true) : 1 ≤ cntP p l := by
  rcases Nat.eq_zero_or_pos (cntP p l) with h | h
  · rw [cntP_eq_zero] at h
    rw [h x hx] at hp
    cases hp
  · exact h

theorem cntP_filter_le {α : Type} {p q : α → Bool} {l : List α} :
    cntP p (l.filter q) ≤ cntP p l := by
  induction l with
  | nil => simp [cntP]
  | cons x xs ih =>
    cases hq : q x <;> cases hx : p x <;>
      simp [List.filter_cons, hq, cntP_cons, hx] <;> omega

theorem cntP_filter_eq {α : Type} {p q : α → Bool} {l : List α}
    (h : ∀ x ∈ l, p x = true → q x = true) :
    cntP p (l.filter q) = cntP p l := by
  induction l with
  | nil => simp
  | cons x xs ih =>
    have ihx := ih (fun y hy => h y (by simp [hy]))
    cases hq : q x with
    | true =>
      simp [List.filter_cons, hq, cntP_cons, ihx]
    | false =>
      have hx : p x = false := by
        cases hx : p x with
        | false => rfl
        | true => rw [h x (by simp) hx] at hq; cases hq
      simp [List.filter_cons, hq, cntP_cons, hx, ihx]

/-
Splitting lemmas for lists with pairwise distinct keys.
-/

theorem nodup_map_split {α κ : Type} (key : α → κ) {l1 l2 : List α} {x : α}
    (h : ((l1 ++ x :: l2).map key).Nodup) :
    (∀ y, (y ∈ l1 ∨ y ∈ l2) → key y ≠ key x) ∧ ((l1 ++ l2).map key).Nodup := by
  rw [List.map_append, List.map_cons] at h
  rcases List.nodup_append.mp h with ⟨h1, h2, hdisj⟩
  rcases List.nodup_cons.mp h2 with ⟨hx2, h2n⟩
  constructor
  · intro y hy hk
    rcases hy with hy | hy
    · have : key y ∈ l1.map key := List.mem_map.mpr ⟨y, hy, rfl⟩
      exact hdisj this (by simp [hk])
    · exact hx2 (by rw [← hk]; exact List.mem_map.mpr ⟨y, hy, rfl⟩)
  · rw [List.map_append]
    refine List.nodup_append.mpr ⟨h1, h2n, ?_⟩
    intro a ha ha2
    exact hdisj ha (by simp [ha2])

theorem exists_key_of_map_eq {α κ : Type} {key : α → κ} {l t : List α}
    (h : t.map key = l.map key) {z : κ} (hz : ∃ i ∈ l, key i = z) :
    ∃ i ∈ t, key i = z := by
  obtain ⟨i, hi, hk⟩ := hz
  have : z ∈ t.map key := by
    rw [h]
    exact List.mem_map.mpr ⟨i, hi, hk⟩
  obtain ⟨j, hj, hk2⟩ := List.mem_map.mp this
  exact ⟨j, hj, hk2⟩

/-
Preservation of the like bookkeeping invariant by each ideas
endpoint.
-/

theorem inv_empty : IdeasInv emptyIdeasDoc := by
  refine ⟨by simp [emptyIdeasDoc], ?_, ?_, ?_⟩
  · intro iid uid
    simp [emptyIdeasDoc, pairCnt, cntP]
  · intro i hi
    simp [emptyIdeasDoc] at hi
  · intro l hl
    simp [emptyIdeasDoc] at hl

theorem inv_create {d : IdeasDoc} (hinv : IdeasInv d)
    {id title description author now : String} {tags : List String}
    (hfresh : ∀ i ∈ d.ideas, i.id ≠ id) :
    IdeasInv (routerCreateIdea d id title description author now tags).1 := by
  refine ⟨?_, ?_, ?_, ?_⟩
  · simp only [routerCreateIdea, List.map_append, List.map_cons, List.map_nil]
    refine List.nodup_append.mpr ⟨hinv.nodupIds, List.nodup_singleton _, ?_⟩
    intro a ha ha2
    obtain ⟨i, hi, hk⟩ := List.mem_map.mp ha
    simp at ha2
    exact hfresh i hi (by rw [hk]; exact ha2)
  · intro iid uid
    exact hinv.pairUnique iid uid
  · intro i hi
    simp only [routerCreateIdea] at hi
    rcases List.mem_append.mp hi with hi | hi
    · exact hinv.counterEq i hi
    · simp at hi
      subst hi
      have hz : likeCnt d.likes id = 0 := by
        rw [likeCnt, cntP_eq_zero]
        intro l hl
        obtain ⟨j, hj, hk⟩ := hinv.likeRef l hl
        cases he : l.idea_id == id with
        | false => rfl
        | true => exact absurd (by rw [hk]; exact eq_of_beq he) (hfresh j hj)
      show (0 : Int) = (likeCnt d.likes id : Int)
      rw [hz]
      simp
  · intro l hl
    obtain ⟨i, hi, hk⟩ := hinv.likeRef l hl
    exact ⟨i, by simp [routerCreateIdea, List.mem_append, hi], hk⟩

theorem inv_update {d : IdeasDoc} (hinv : IdeasInv d) {iid : String}
    {u : IdeaUpdate} {d2 : IdeasDoc} {v : Idea}
    (h : updateIdea d iid u = some (d2, v)) : IdeasInv d2 := by
  rw [updateIdea] at h
  cases hr : updateFirst (fun i => i.id == iid) (applyIdeaUpdate u) d.ideas with
  | none => rw [hr] at h; cases h
  | some r =>
    obtain ⟨a, b, t⟩ := r
    rw [hr] at h
    simp at h
    obtain ⟨hd2, hv⟩ := h
    obtain ⟨hp, hb, l1, l2, hl, ht, hpre⟩ := updateFirst_eq_some hr
    have hmap : t.map Idea.id = d.ideas.map Idea.id := by
      rw [hl, ht]
      simp [applyIdeaUpdate]
    refine ⟨?_, ?_, ?_, ?_⟩
    · rw [← hd2]
      show (t.map Idea.id).Nodup
      rw [hmap]; exact hinv.nodupIds
    · intro i u2
      rw [← hd2]
      exact hinv.pairUnique i u2
    · intro i hi
      rw [← hd2] at hi ⊢
      show i.likes = (likeCnt d.likes i.id : Int)
      rw [ht] at hi
      rcases List.mem_append.mp hi with hi | hi
      · exact hinv.counterEq i (by rw [hl]; exact List.mem_append.mpr (Or.inl hi))
      · rcases List.mem_cons.mp hi with hi | hi
        · subst hi
          have := hinv.counterEq a (by rw [hl]; simp)
          simpa [applyIdeaUpdate] using this
        · exact hinv.counterEq i (by rw [hl]; simp [hi])
    · intro l hl2
      rw [← hd2] at hl2 ⊢
      exact exists_key_of_map_eq hmap (hinv.likeRef l hl2)

theorem inv_delete {d : IdeasDoc} (hinv : IdeasInv d) {iid : String} :
    IdeasInv (deleteIdea d iid).1 := by
  rw [deleteIdea]
  cases hr : popFirst (fun i => i.id == iid) d.ideas with
  | none => exact hinv
  | some r =>
    obtain ⟨x, t⟩ := r
    obtain ⟨hp, l1, l2, hl, ht, hpre⟩ := popFirst_eq_some hr
    have hxid : x.id = iid := eq_of_beq hp
    have hsplit := nodup_map_split Idea.id (by rw [← hl]; exact hinv.nodupIds)
    refine ⟨?_, ?_, ?_, ?_⟩
    · show (t.map Idea.id).Nodup
      rw [ht]; exact hsplit.2
    · intro i u2
      calc pairCnt (d.likes.filter (fun l => !(l.idea_id == iid))) i u2
          ≤ pairCnt d.likes i u2 := cntP_filter_le
        _ ≤ 1 := hinv.pairUnique i u2
    · intro i hi
      show i.likes = (likeCnt (d.likes.filter (fun l => !(l.idea_id == iid))) i.id : Int)
      rw [ht] at hi
      have hidne : i.id ≠ iid := by
        rw [← hxid]
        exact hsplit.1 i (List.mem_append.mp hi)
      have hcnt : likeCnt (d.likes.filter (fun l => !(l.idea_id == iid))) i.id
          = likeCnt d.likes i.id := by
        rw [likeCnt, likeCnt]
        refine cntP_filter_eq ?_
        intro l hl2 hb
        have : l.idea_id = i.id := eq_of_beq hb
        cases he : l.idea_id == iid with
        | false => rfl
        | true => exact absurd (by rw [← this, eq_of_beq he]) hidne
      rw [hcnt]
      refine hinv.counterEq i ?_
      rw [hl]
      rcases List.mem_append.mp hi with h2 | h2
      · exact List.mem_append.mpr (Or.inl h2)
      · simp [h2]
    · intro l hl2
      have hmem := List.mem_filter.mp hl2
      obtain ⟨j, hj, hk⟩ := hinv.likeRef l hmem.1
      have hlne : l.idea_id ≠ iid := by
        intro he
        rw [he] at hmem
        simp at hmem
      refine ⟨j, ?_, hk⟩
      rw [hl] at hj
      rw [ht]
      rcases List.mem_append.mp hj with h2 | h2
      · exact List.mem_append.mpr (Or.inl h2)
      · rcases List.mem_cons.mp h2 with h2 | h2
        · exact absurd (by rw [← hk, h2, hxid]) hlne
        · exact List.mem_append.mpr (Or.inr h2)

theorem inv_toggle {d : IdeasDoc} (hinv : IdeasInv d) {iid uid lid now : String}
    {d2 : IdeasDoc} {v : IdeaView}
    (h : toggleLike d iid uid lid now = some (d2, v)) : IdeasInv d2 := by
  rw [toggleLike] at h
  cases hpop : popFirst (fun l => l.idea_id == iid && l.user_id == uid) d.likes with
  | some r =>
    obtain ⟨lk, rest⟩ := r
    rw [hpop] at h
    cases hupd : updateFirst (fun i => i.id == iid)
        (fun i => { i with likes := max 0 (i.likes - 1) }) d.ideas with
    | none => rw [hupd] at h; cases h
    | some s =>
      obtain ⟨a, b, t⟩ := s
      rw [hupd] at h
      simp at h
      obtain ⟨hd2, hv⟩ := h
      obtain ⟨hplk, m1, m2, hlkl, hrest, hmpre⟩ := popFirst_eq_some hpop
      obtain ⟨hpa, hb, l1, l2, hl, ht, hpre⟩ := updateFirst_eq_some hupd
      have haid : a.id = iid := eq_of_beq hpa
      have hlk1 : lk.idea_id = iid := eq_of_beq (Bool.and_elim_left hplk)
      have hlk2 : lk.user_id = uid := eq_of_beq (Bool.and_elim_right hplk)
      have hmap : t.map Idea.id = d.ideas.map Idea.id := by
        rw [hl, ht]; simp
      have hsplit := nodup_map_split Idea.id
        (by rw [← hl]; exact hinv.nodupIds)
      have hcnt_likes : ∀ q : Like → Bool,
          cntP q d.likes = cntP q m1 + cntP q m2 + (if q lk then 1 else 0) := by
        intro q
        rw [hlkl, cntP_append, cntP_cons]
        omega
      have hcnt_rest : ∀ q : Like → Bool,
          cntP q rest = cntP q m1 + cntP q m2 := by
        intro q
        rw [hrest, cntP_append]
      refine ⟨?_, ?_, ?_, ?_⟩
      · rw [← hd2]
        show (t.map Idea.id).Nodup
        rw [hmap]; exact hinv.nodupIds
      · intro i u2
        rw [← hd2]
        show pairCnt rest i u2 ≤ 1
        have h1 := hinv.pairUnique i u2
        rw [pairCnt] at h1 ⊢
        rw [hcnt_likes] at h1
        rw [hcnt_rest]
        omega
      · intro i hi
        rw [← hd2] at hi ⊢
        show i.likes = (likeCnt rest i.id : Int)
        rw [ht] at hi
        rcases List.mem_append.mp hi with hi | hi
        · have hne : i.id ≠ iid := by
            rw [← haid]; exact hsplit.1 i (Or.inl hi)
          have hmem : i ∈ d.ideas := by
            rw [hl]; exact List.mem_append.mpr (Or.inl hi)
          have heq : likeCnt rest i.id = likeCnt d.likes i.id := by
            rw [likeCnt, likeCnt, hcnt_rest, hcnt_likes]
            have : (lk.idea_id == i.id) = false := by
              cases he : lk.idea_id == i.id with
              | false => rfl
              | true => exact absurd (by rw [← eq_of_beq he, hlk1]) (Ne.symm hne)
            rw [this]
            simp
          rw [heq]
          exact hinv.counterEq i hmem
        · rcases List.mem_cons.mp hi with hi | hi
          · subst hi
            have hamem : a ∈ d.ideas := by rw [hl]; simp
            have hac := hinv.counterEq a hamem
            have hlkmem : lk ∈ d.likes := by rw [hlkl]; simp
            have hq : (lk.idea_id == iid) = true := by
              rw [hlk1]; exact beq_self_eq_true iid
            have hge : 1 ≤ likeCnt d.likes iid := cntP_pos hlkmem hq
            have hrw : likeCnt rest iid = likeCnt d.likes iid - 1 := by
              rw [likeCnt, likeCnt, hcnt_rest, hcnt_likes, hq]
              simp
            show max 0 (a.likes - 1) = (likeCnt rest a.id : Int)
            rw [haid] at hac ⊢
            rw [hac, hrw]
            have h1 : (0 : Int) ≤ (likeCnt d.likes iid : Int) - 1 := by
              have := hge
              omega
            rw [max_eq_right h1]
            omega
          · have hne : i.id ≠ iid := by
              rw [← haid]; exact hsplit.1 i (Or.inr hi)
            have hmem : i ∈ d.ideas := by
              rw [hl]; exact List.mem_append.mpr (Or.inr (List.mem_cons.mpr (Or.inr hi)))
            have heq : likeCnt rest i.id = likeCnt d.likes i.id := by
              rw [likeCnt, likeCnt, hcnt_rest, hcnt_likes]
              have : (lk.idea_id == i.id) = false := by
                cases he : lk.idea_id == i.id with
                | false => rfl
                | true => exact absurd (by rw [← eq_of_beq he, hlk1]) (Ne.symm hne)
              rw [this]
              simp
            rw [heq]
            exact hinv.counterEq i hmem
      · intro l hl2
        rw [← hd2] at hl2 ⊢
        have hmem : l ∈ d.likes := by
          have : l ∈ rest := hl2
          rw [hrest] at this
          rw [hlkl]
          rcases List.mem_append.mp this with h2 | h2
          · exact List.mem_append.mpr (Or.inl h2)
          · exact List.mem_append.mpr (Or.inr (List.mem_cons.mpr (Or.inr h2)))
        exact exists_key_of_map_eq hmap (hinv.likeRef l hmem)
  | none =>
    rw [hpop] at h
    cases hupd : updateFirst (fun i => i.id == iid)
        (fun i => { i with likes := i.likes + 1 }) d.ideas with
    | none => rw [hupd] at h; cases h
    | some s =>
      obtain ⟨a, b, t⟩ := s
      rw [hupd] at h
      simp at h
      obtain ⟨hd2, hv⟩ := h
      obtain ⟨hpa, hb, l1, l2, hl, ht, hpre⟩ := updateFirst_eq_some hupd
      have haid : a.id = iid := eq_of_beq hpa
      have hzero : pairCnt d.likes iid uid = 0 := by
        rw [pairCnt, cntP_eq_zero]
        exact popFirst_eq_none.mp hpop
      have hmap : t.map Idea.id = d.ideas.map Idea.id := by
        rw [hl, ht]; simp
      have hsplit := nodup_map_split Idea.id
        (by rw [← hl]; exact hinv.nodupIds)
      refine ⟨?_, ?_, ?_, ?_⟩
      · rw [← hd2]
        show (t.map Idea.id).Nodup
        rw [hmap]; exact hinv.nodupIds
      · intro i u2
        rw [← hd2]
        show pairCnt (d.likes ++ [{ id := lid, user_id := uid, idea_id := iid, created_at := now }]) i u2 ≤ 1
        have hsum : pairCnt (d.likes ++ [{ id := lid, user_id := uid, idea_id := iid, created_at := now }]) i u2
            = pairCnt d.likes i u2 + (if (iid == i && uid == u2) then 1 else 0) := by
          rw [pairCnt, pairCnt, cntP_append, cntP_cons, cntP_nil]
          simp
        cases hq : (iid == i && uid == u2) with
        | false =>
          rw [hsum, hq]
          simpa using hinv.pairUnique i u2
        | true =>
          have hi2 : iid = i := eq_of_beq (Bool.and_elim_left hq)
          have hu2 : uid = u2 := eq_of_beq (Bool.and_elim_right hq)
          have h0 : pairCnt d.likes i u2 = 0 := by rw [← hi2, ← hu2]; exact hzero
          rw [hsum, hq, h0]
          simp
      · intro i hi
        rw [← hd2] at hi ⊢
        show i.likes = (likeCnt (d.likes ++ [{ id := lid, user_id := uid, idea_id := iid, created_at := now }]) i.id : Int)
        rw [ht] at hi
        have hnewcnt : ∀ z : String,
            likeCnt (d.likes ++ [{ id := lid, user_id := uid, idea_id := iid, created_at := now }]) z
            = likeCnt d.likes z + (if (iid == z) then 1 else 0) := by
          intro z
          rw [likeCnt, likeCnt, cntP_append, cntP_cons, cntP_nil]
          simp
        rcases List.mem_append.mp hi with hi | hi
        · have hne : i.id ≠ iid := by
            rw [← haid]; exact hsplit.1 i (Or.inl hi)
          have hmem : i ∈ d.ideas := by
            rw [hl]; exact List.mem_append.mpr (Or.inl hi)
          rw [hnewcnt]
          have : (iid == i.id) = false := by
            cases he : iid == i.id with
            | false => rfl
            | true => exact absurd (eq_of_beq he).symm hne
          rw [this]
          simpa using hinv.counterEq i hmem
        · rcases List.mem_cons.mp hi with hi | hi
          · subst hi
            have hamem : a ∈ d.ideas := by rw [hl]; simp
            have hac := hinv.counterEq a hamem
            show a.likes + 1 = (likeCnt (d.likes ++ [{ id := lid, user_id := uid, idea_id := iid, created_at := now }]) a.id : Int)
            rw [hnewcnt, haid, beq_self_eq_true]
            rw [haid] at hac
            rw [hac]
            simp
          · have hne : i.id ≠ iid := by
              rw [← haid]; exact hsplit.1 i (Or.inr hi)
            have hmem : i ∈ d.ideas := by
              rw [hl]; exact List.mem_append.mpr (Or.inr (List.mem_cons.mpr (Or.inr hi)))
            rw [hnewcnt]
            have : (iid == i.id) = false := by
              cases he : iid == i.id with
              | false => rfl
              | true => exact absurd (eq_of_beq he).symm hne
            rw [this]
            simpa using hinv.counterEq i hmem
      · intro l hl2
        rw [← hd2] at hl2 ⊢
        rcases List.mem_append.mp hl2 with h2 | h2
        · exact exists_key_of_map_eq hmap (hinv.likeRef l h2)
        · have : l = { id := lid, user_id := uid, idea_id := iid, created_at := now } := by
            simpa using h2
          refine ⟨b, ?_, ?_⟩
          · rw [ht, hb]; simp
          · rw [this, hb]; exact haid

theorem inv_comment {d : IdeasDoc} (hinv : IdeasInv d) {iid cid content author now : String}
    {d2 : IdeasDoc} {c : IdeaComment}
    (h : addIdeaComment d iid cid content author now = some (d2, c)) : IdeasInv d2 := by
  rw [addIdeaComment] at h
  cases hf : findFirst (fun i => i.id == iid) d.ideas with
  | none => rw [hf] at h; cases h
  | some x =>
    rw [hf] at h
    simp at h
    obtain ⟨hd2, hc⟩ := h
    rw [← hd2]
    exact ⟨hinv.nodupIds, hinv.pairUnique, hinv.counterEq, hinv.likeRef⟩

/- Every reachable ideas document satisfies the like bookkeeping
invariant. -/
theorem reach_inv {d : IdeasDoc} (h : ReachIdeas d) : IdeasInv d := by
  induction h with
  | empty => exact inv_empty
  | create d id title description author now tags hr hfresh ih => exact inv_create ih hfresh
  | update d iid u d2 v hr hu ih => exact inv_update ih hu
  | del d iid hr ih => exact inv_delete ih
  | toggle d iid uid lid now d2 v hr ht ih => exact inv_toggle ih ht
  | comment d iid cid content author now d2 c hr hc ih => exact inv_comment ih hc

theorem findFirst_mem {α : Type} {p : α → Bool} {l : List α} {x : α}
    (h : findFirst p l = some x) : x ∈ l ∧ p x = true := by
  induction l with
  | nil => simp [findFirst] at h
  | cons a as ih =>
    cases ha : p a with
    | true =>
      simp [findFirst, ha] at h
      subst h
      exact ⟨by simp, ha⟩
    | false =>
      simp [findFirst, ha] at h
      have := ih h
      exact ⟨List.mem_cons.mpr (Or.inr this.1), this.2⟩

/- Full characterization of one toggle_like call on a document
satisfying the invariant: the branch taken, the returned userLiked
flag, the like row bookkeeping, and the counter movement, all
relative to the idea record i0 the call starts from. -/
theorem toggleLike_step {d : IdeasDoc} (hinv : IdeasInv d) {iid uid lid now : String}
    {d2 : IdeasDoc} {v : IdeaView} {i0 : Idea}
    (hf : findFirst (fun i => i.id == iid) d.ideas = some i0)
    (h : toggleLike d iid uid lid now = some (d2, v)) :
    findFirst (fun i => i.id == iid) d2.ideas = some v.idea ∧
    d2.comments = d.comments ∧
    i0.likes = (likeCnt d.likes iid : Int) ∧
    ( (pairCnt d.likes iid uid = 0 ∧ v.userLiked = true ∧
        pairCnt d2.likes iid uid = 1 ∧
        likeCnt d2.likes iid = likeCnt d.likes iid + 1 ∧
        d2.likes.length = d.likes.length + 1 ∧
        v.idea.likes = i0.likes + 1) ∨
      (pairCnt d.likes iid uid = 1 ∧ v.userLiked = false ∧
        pairCnt d2.likes iid uid = 0 ∧
        likeCnt d.likes iid = likeCnt d2.likes iid + 1 ∧
        d.likes.length = d2.likes.length + 1 ∧
        1 ≤ i0.likes ∧
        v.idea.likes = i0.likes - 1) ) := by
  have hi0 := findFirst_mem hf
  have hi0id : i0.id = iid := eq_of_beq hi0.2
  have hc0 : i0.likes = (likeCnt d.likes iid : Int) := by
    have := hinv.counterEq i0 hi0.1
    rw [hi0id] at this
    exact this
  rw [toggleLike] at h
  cases hpop : popFirst (fun l => l.idea_id == iid && l.user_id == uid) d.likes with
  | some r =>
    obtain ⟨lk, rest⟩ := r
    rw [hpop] at h
    cases hupd : updateFirst (fun i => i.id == iid)
        (fun i => { i with likes := max 0 (i.likes - 1) }) d.ideas with
    | none => rw [hupd] at h; cases h
    | some s =>
      obtain ⟨a, b, t⟩ := s
      rw [hupd] at h
      simp at h
      obtain ⟨hd2, hv⟩ := h
      obtain ⟨hplk, m1, m2, hlkl, hrest, hmpre⟩ := popFirst_eq_some hpop
      obtain ⟨hpa, hb, l1, l2, hl, ht, hpre⟩ := updateFirst_eq_some hupd
      have haid : a.id = iid := eq_of_beq hpa
      have hlk1 : lk.idea_id = iid := eq_of_beq (Bool.and_elim_left hplk)
      have hlk2 : lk.user_id = uid := eq_of_beq (Bool.and_elim_right hplk)
      have hcnt_likes : ∀ q : Like → Bool,
          cntP q d.likes = cntP q m1 + cntP q m2 + (if q lk then 1 else 0) := by
        intro q
        rw [hlkl, cntP_append, cntP_cons]
        omega
      have hcnt_rest : ∀ q : Like → Bool,
          cntP q rest = cntP q m1 + cntP q m2 := by
        intro q
        rw [hrest, cntP_append]
      have ha_eq : a = i0 := by
        have : findFirst (fun i => i.id == iid) d.ideas = some a := by
          rw [hl]
          exact findFirst_split hpre hpa
        rw [this] at hf
        exact (Option.some_inj.mp hf)
      have hqlk2 : (lk.idea_id == iid) = true := by
        rw [hlk1]; exact beq_self_eq_true iid
      have hpair1 : pairCnt d.likes iid uid = 1 := by
        have hle := hinv.pairUnique iid uid
        have : 1 ≤ pairCnt d.likes iid uid := by
          refine cntP_pos ?_ hplk
          rw [hlkl]; simp
        omega
      have hpair0 : pairCnt rest iid uid = 0 := by
        have h2 := hpair1
        rw [pairCnt, hcnt_likes, hplk] at h2
        simp at h2
        rw [pairCnt, hcnt_rest]
        omega
      have hlcnt : likeCnt d.likes iid = likeCnt rest iid + 1 := by
        rw [likeCnt, likeCnt, hcnt_likes, hcnt_rest, hqlk2]
        simp
      have hge1 : 1 ≤ likeCnt d.likes iid := by omega
      have hi0ge : 1 ≤ i0.likes := by
        rw [hc0]
        exact_mod_cast hge1
      refine ⟨?_, ?_, hc0, Or.inr ⟨hpair1, ?_, ?_, ?_, ?_, hi0ge, ?_⟩⟩
      · rw [← hd2, ← hv]
        show findFirst (fun i => i.id == iid) t = some b
        rw [ht, hb]
        refine findFirst_split hpre ?_
        simp [haid]
      · rw [← hd2]
      · rw [← hv]
      · rw [← hd2]
        exact hpair0
      · rw [← hd2]
        exact hlcnt
      · rw [← hd2]
        show d.likes.length = rest.length + 1
        rw [hlkl, hrest]
        simp
        omega
      · rw [← hv, hb]
        show max 0 (a.likes - 1) = i0.likes - 1
        rw [ha_eq]
        have : (0 : Int) ≤ i0.likes - 1 := by omega
        rw [max_eq_right this]
  | none =>
    rw [hpop] at h
    cases hupd : updateFirst (fun i => i.id == iid)
        (fun i => { i with likes := i.likes + 1 }) d.ideas with
    | none => rw [hupd] at h; cases h
    | some s =>
      obtain ⟨a, b, t⟩ := s
      rw [hupd] at h
      simp at h
      obtain ⟨hd2, hv⟩ := h
      obtain ⟨hpa, hb, l1, l2, hl, ht, hpre⟩ := updateFirst_eq_some hupd
      have haid : a.id = iid := eq_of_beq hpa
      have hzero : pairCnt d.likes iid uid = 0 := by
        rw [pairCnt, cntP_eq_zero]
        exact popFirst_eq_none.mp hpop
      have ha_eq : a = i0 := by
        have : findFirst (fun i => i.id == iid) d.ideas = some a := by
          rw [hl]
          exact findFirst_split hpre hpa
        rw [this] at hf
        exact (Option.some_inj.mp hf)
      refine ⟨?_, ?_, hc0, Or.inl ⟨hzero, ?_, ?_, ?_, ?_, ?_⟩⟩
      · rw [← hd2, ← hv]
        show findFirst (fun i => i.id == iid) t = some b
        rw [ht, hb]
        refine findFirst_split hpre ?_
        simp [haid]
      · rw [← hd2]
      · rw [← hv]
      · rw [← hd2]
        show pairCnt (d.likes ++ [{ id := lid, user_id := uid, idea_id := iid, created_at := now }]) iid uid = 1
        rw [pairCnt, cntP_append, cntP_cons, cntP_nil]
        rw [pairCnt] at hzero
        simp [hzero]
      · rw [← hd2]
        show likeCnt (d.likes ++ [{ id := lid, user_id := uid, idea_id := iid, created_at := now }]) iid
            = likeCnt d.likes iid + 1
        rw [likeCnt, likeCnt, cntP_append, cntP_cons, cntP_nil]
        simp
      · rw [← hd2]
        simp
      · rw [← hv, hb]
        show a.likes + 1 = i0.likes + 1
        rw [ha_eq]

/- Toggling twice with the same user restores the likes counter of
the idea, on any reachable document. -/
theorem toggle_twice_counter {d : IdeasDoc} (hr : ReachIdeas d)
    {iid uid la na lb nb : String} {d1 d2 : IdeasDoc} {v1 v2 : IdeaView} {i0 : Idea}
    (hf : findFirst (fun i => i.id == iid) d.ideas = some i0)
    (h1 : toggleLike d iid uid la na = some (d1, v1))
    (h2 : toggleLike d1 iid uid lb nb = some (d2, v2)) :
    findFirst (fun i => i.id == iid) d2.ideas = some v2.idea ∧
    v2.idea.likes = i0.likes := by
  have hinv := reach_inv hr
  have hinv1 := inv_toggle hinv h1
  obtain ⟨hf1, _, _, hbr1⟩ := toggleLike_step hinv hf h1
  obtain ⟨hf2, _, _, hbr2⟩ := toggleLike_step hinv1 hf1 h2
  refine ⟨hf2, ?_⟩
  rcases hbr1 with ⟨hp0, _, hp1, _, _, hlikes1⟩ | ⟨hp1, _, hp0, _, _, hge, hlikes1⟩
  · rcases hbr2 with ⟨hq0, _, _, _, _, _⟩ | ⟨_, _, _, _, _, _, hlikes2⟩
    · rw [hp1] at hq0; cases hq0
    · rw [hlikes2, hlikes1]; ring
  · rcases hbr2 with ⟨hq0, _, _, _, _, hlikes2⟩ | ⟨hq1, _, _, _, _, _, _⟩
    · rw [hlikes2, hlikes1]; ring
    · rw [hp0] at hq1; cases hq1

/- A successful toggle implies the idea is present. -/
theorem toggleLike_find {d : IdeasDoc} {iid uid lid now : String}
    {d2 : IdeasDoc} {v : IdeaView}
    (h : toggleLike d iid uid lid now = some (d2, v)) :
    ∃ i0, findFirst (fun i => i.id == iid) d.ideas = some i0 := by
  rw [toggleLike] at h
  cases hpop : popFirst (fun l => l.idea_id == iid && l.user_id == uid) d.likes with
  | some r =>
    rw [hpop] at h
    cases hupd : updateFirst (fun i => i.id == iid)
        (fun i => { i with likes := max 0 (i.likes - 1) }) d.ideas with
    | none => rw [hupd] at h; cases h
    | some s =>
      obtain ⟨a, b, t⟩ := s
      obtain ⟨hpa, hb, l1, l2, hl, ht, hpre⟩ := updateFirst_eq_some hupd
      exact ⟨a, by rw [hl]; exact findFirst_split hpre hpa⟩
  | none =>
    rw [hpop] at h
    cases hupd : updateFirst (fun i => i.id == iid)
        (fun i => { i with likes := i.likes + 1 }) d.ideas with
    | none => rw [hupd] at h; cases h
    | some s =>
      obtain ⟨a, b, t⟩ := s
      obtain ⟨hpa, hb, l1, l2, hl, ht, hpre⟩ := updateFirst_eq_some hupd
      exact ⟨a, by rw [hl]; exact findFirst_split hpre hpa⟩

/- applyPostUpdate never touches the id field. -/
theorem applyPostUpdate_id (a : Post) (u : PostUpdate) (now : String) :
    (applyPostUpdate a u now).id = a.id := by
  obtain ⟨t, c, e, ts, ip⟩ := u
  cases t <;> cases c <;> cases e <;> cases ts <;> cases ip <;>
    simp [applyPostUpdate, apply_ite (fun q : Post => q.id)]

/- When an update supplies content and no explicit excerpt, the
stored excerpt is the derived one. -/
theorem applyPostUpdate_excerpt (a : Post) (tt : Option String)
    (ts : Option (List String)) (ip : Option Bool) (c now : String) :
    (applyPostUpdate a
      { title := tt, content := some c, excerpt := none, tags := ts, is_published := ip }
      now).excerpt = some (deriveExcerpt c) := by
  cases tt <;> cases ts <;> cases ip <;>
    simp [applyPostUpdate, apply_ite (fun q : Post => q.excerpt)]

/- With pairwise distinct keys, the first match of the key of a
member is that member. -/
theorem findFirst_key_self {α : Type} (key : α → String) {l : List α} {x : α}
    (hnd : (l.map key).Nodup) (hx : x ∈ l) :
    findFirst (fun y => key y == key x) l = some x := by
  induction l with
  | nil => cases hx
  | cons a as ih =>
    rw [List.map_cons, List.nodup_cons] at hnd
    obtain ⟨hnot, hnd2⟩ := hnd
    rcases List.mem_cons.mp hx with h | h
    · subst h
      simp [findFirst]
    · have hne : (key a == key x) = false := by
        cases he : key a == key x with
        | false => rfl
        | true =>
          have hke : key a = key x := eq_of_beq he
          exact absurd (by rw [hke]; exact List.mem_map.mpr ⟨x, h, rfl⟩) hnot
      simp only [findFirst, hne]
      simp only [Bool.false_eq_true, if_false]
      exact ih hnd2 h

/- Membership facts for the stable descending sort and the key
computation of get_posts. -/
theorem mem_insertKeyDesc {x y : String × PostView} {l : List (String × PostView)}
    (h : y ∈ insertKeyDesc x l) : y = x ∨ y ∈ l := by
  induction l with
  | nil => simpa [insertKeyDesc] using h
  | cons a as ih =>
    rw [insertKeyDesc] at h
    by_cases hc : a.1 < x.1
    · rw [if_pos hc] at h
      rcases List.mem_cons.mp h with h2 | h2
      · exact Or.inl h2
      · exact Or.inr h2
    · rw [if_neg hc] at h
      rcases List.mem_cons.mp h with h2 | h2
      · exact Or.inr (by rw [h2]; simp)
      · rcases ih h2 with h3 | h3
        · exact Or.inl h3
        · exact Or.inr (List.mem_cons.mpr (Or.inr h3))

theorem mem_foldl_insertKeyDesc {l : List (String × PostView)}
    {acc : List (String × PostView)} {y : String × PostView}
    (h : y ∈ l.foldl (fun acc2 x => insertKeyDesc x acc2) acc) :
    y ∈ acc ∨ y ∈ l := by
  induction l generalizing acc with
  | nil => exact Or.inl h
  | cons a as ih =>
    rw [List.foldl_cons] at h
    rcases ih h with h2 | h2
    · rcases mem_insertKeyDesc h2 with h3 | h3
      · exact Or.inr (by rw [h3]; simp)
      · exact Or.inl h3
    · exact Or.inr (List.mem_cons.mpr (Or.inr h2))

theorem mem_sortKeyDesc {l : List (String × PostView)} {y : String × PostView}
    (h : y ∈ sortKeyDesc l) : y ∈ l := by
  rcases mem_foldl_insertKeyDesc h with h2 | h2
  · cases h2
  · exact h2

theorem keyedViews_ok_mem {vs : List PostView} {pairs : List (String × PostView)}
    (h : keyedViews vs = Except.ok pairs) {pr : String × PostView} (hpr : pr ∈ pairs) :
    pr.2 ∈ vs := by
  induction vs generalizing pairs with
  | nil =>
    simp [keyedViews] at h
    subst h
    cases hpr
  | cons v vs ih =>
    rw [keyedViews] at h
    cases hk : pyFromIso (pySortKeyVal v.post) with
    | error e => rw [hk] at h; cases h
    | ok k =>
      rw [hk] at h
      cases hrest : keyedViews vs with
      | error e => rw [hrest] at h; cases h
      | ok rest =>
        rw [hrest] at h
        simp at h
        subst h
        rcases List.mem_cons.mp hpr with h2 | h2
        · rw [h2]; simp
        · exact List.mem_cons.mpr (Or.inr (ih hrest h2))

/- Under the default published_only filter, every post passing the
filter is published. -/
theorem postPasses_published {p : Post} {search tag : Option String}
    (h : postPasses p search tag true = true) : p.is_published = true := by
  rw [postPasses.eq_def] at h
  simp only [Bool.and_eq_true] at h
  obtain ⟨⟨h2, _⟩, _⟩ := h
  cases hp : p.is_published with
  | true => rfl
  | false => rw [hp] at h2; simp at h2

/-- C1: the claim says get_posts always returns the filtered posts
sorted by published_at descending with created_at in its place when
published_at is absent, then sliced by skip and limit, for every
stored document including one holding a post whose published_at is
null when published_only is false. The code violates this: the sort
key expression x.get of the published_at key only falls back to
created_at when the KEY is missing, while every unpublished post the
router itself creates stores the key bound to null, so the key value
is None and datetime.fromisoformat(None) raises TypeError out of
get_posts. This theorem evaluates the embedding at such a document:
the stored draft post has its published_at key present and null, and
the listing call with published_only false returns the error outcome
instead of a sorted slice. -/
theorem c1_get_posts_crashes_on_null_published_at :
    (findFirst (fun p => p.id == "p1") wDraftDoc.posts).map Post.published_at
      = some (some none) ∧
    getPosts wDraftDoc 0 10 none none false = Except.error () := ⟨rfl, rfl⟩

/-- C2: the claim says published_at is assigned exactly once, at the
first transition of is_published from false to true, and never
altered by later updates, including an unpublish followed by a
republish. The code violates this: update_post stamps published_at
whenever the request sets is_published true while the stored post has
is_published false, so a republish after an unpublish overwrites the
original timestamp. This theorem evaluates the embedding: a post
published at creation time carries published_at T1; updating
is_published to false at T2 and back to true at T3 leaves
published_at equal to T3, not the original T1. -/
theorem c2_republish_restamps_published_at :
    wPubDoc.posts.map Post.published_at = [some (some "2024-01-01T00:00:00")] ∧
    wRepublish.map Post.published_at = some (some (some "2024-01-03T00:00:00")) ∧
    wRepublish.map Post.published_at ≠ some (some (some "2024-01-01T00:00:00")) :=
  ⟨rfl, rfl, by decide⟩

/-- C7: load_data never propagates a missing file or a decode failure
to its caller: in both cases it rewrites the persisted file with the
encoded empty-collections document and returns that empty document,
whose collections are all empty; this holds for the ideas store and
for the posts store, for every decoder and encoder. -/
theorem c7_load_reinitializes (decI : String → Option IdeasDoc) (encI : IdeasDoc → String)
    (decP : String → Option PostsDoc) (encP : PostsDoc → String) (file : Option String) :
    ((file = none ∨ ∃ s, file = some s ∧ decI s = none) →
      loadIdeasData decI encI file = (some (encI emptyIdeasDoc), emptyIdeasDoc)) ∧
    ((file = none ∨ ∃ s, file = some s ∧ decP s = none) →
      loadPostsData decP encP file = (some (encP emptyPostsDoc), emptyPostsDoc)) ∧
    emptyIdeasDoc.ideas = [] ∧ emptyIdeasDoc.comments = [] ∧
    emptyIdeasDoc.likes = [] ∧ emptyIdeasDoc.tags = [] ∧
    emptyPostsDoc.posts = [] ∧ emptyPostsDoc.post_comments = [] ∧
    emptyPostsDoc.tags = [] := by
  refine ⟨?_, ?_, rfl, rfl, rfl, rfl, rfl, rfl, rfl⟩
  · intro h
    rcases h with h | ⟨s, hs, hd⟩
    · subst h; rfl
    · subst hs
      simp [loadIdeasData, loadData, hd]
  · intro h
    rcases h with h | ⟨s, hs, hd⟩
    · subst h; rfl
    · subst hs
      simp [loadPostsData, loadData, hd]

theorem c7_witness :
    loadIdeasData (fun _ => none) (fun _ => "E") none = (some "E", emptyIdeasDoc) ∧
    loadPostsData (fun _ => none) (fun _ => "F") (some "garbage") = (some "F", emptyPostsDoc) :=
  ⟨(c7_load_reinitializes (fun _ => none) (fun _ => "E") (fun _ => none) (fun _ => "F")
      none).1 (Or.inl rfl),
   (c7_load_reinitializes (fun _ => none) (fun _ => "E") (fun _ => none) (fun _ => "F")
      (some "garbage")).2.1 (Or.inr ⟨"garbage", rfl, rfl⟩)⟩

/-- C3: on any reachable ideas document, for an idea that is present
and a user with no existing like row for the pair, toggling the like
twice in succession leaves the stored likes counter of the idea at
its original value, and the second result reports userLiked false. -/
theorem c3_double_toggle_roundtrip (d : IdeasDoc) (iid uid la na lb nb : String)
    (d1 d2 : IdeasDoc) (v1 v2 : IdeaView) (i0 : Idea)
    (hr : ReachIdeas d)
    (hnolike : pairCnt d.likes iid uid = 0)
    (hf : findFirst (fun i => i.id == iid) d.ideas = some i0)
    (h1 : toggleLike d iid uid la na = some (d1, v1))
    (h2 : toggleLike d1 iid uid lb nb = some (d2, v2)) :
    findFirst (fun i => i.id == iid) d2.ideas = some v2.idea ∧
    v2.idea.likes = i0.likes ∧
    v2.userLiked = false := by
  have hinv := reach_inv hr
  have hinv1 := inv_toggle hinv h1
  have hcnt := toggle_twice_counter hr hf h1 h2
  obtain ⟨hf1, _, _, hbr1⟩ := toggleLike_step hinv hf h1
  obtain ⟨hf2, _, _, hbr2⟩ := toggleLike_step hinv1 hf1 h2
  refine ⟨hcnt.1, hcnt.2, ?_⟩
  rcases hbr1 with ⟨_, _, hp1, _, _, _⟩ | ⟨hp1, _, _, _, _, _, _⟩
  · rcases hbr2 with ⟨hq0, _, _, _, _, _⟩ | ⟨_, hul, _, _, _, _, _⟩
    · rw [hp1] at hq0; cases hq0
    · exact hul
  · rw [hnolike] at hp1; cases hp1

theorem c3_witness :
    pairCnt wIdeasDoc.likes "i1" "u1" = 0 ∧
    (findFirst (fun i => i.id == "i1") wToggle2.1.ideas = some wToggle2.2.idea ∧
      wToggle2.2.idea.likes = wIdea0.likes ∧
      wToggle2.2.userLiked = false) :=
  ⟨rfl,
   c3_double_toggle_roundtrip wIdeasDoc "i1" "u1" "l1" "2024-01-02T00:00:00"
     "l2" "2024-01-03T00:00:00" wToggle1.1 wToggle2.1 wToggle1.2 wToggle2.2 wIdea0
     (ReachIdeas.create emptyIdeasDoc "i1" "T" "D" "A" "January 01, 2024" ["go"]
       ReachIdeas.empty (by intro i hi; simp [emptyIdeasDoc] at hi))
     rfl rfl rfl rfl⟩

/-- C4: every reachable ideas document carries at most one like row
per (idea, user) pair and a non-negative likes counter on every idea,
and on such a document toggle_like either inserts exactly one like
row while moving the counter up by one, or removes exactly one like
row while moving the counter down by one, in lock-step with the row
count for that idea. -/
theorem c4_like_invariants (d : IdeasDoc) (hr : ReachIdeas d) :
    (∀ iid uid, pairCnt d.likes iid uid ≤ 1) ∧
    (∀ i ∈ d.ideas, 0 ≤ i.likes) ∧
    (∀ iid uid lid now d2 v, toggleLike d iid uid lid now = some (d2, v) →
      (d2.likes.length = d.likes.length + 1 ∧
        likeCnt d2.likes iid = likeCnt d.likes iid + 1 ∧
        v.idea.likes = (likeCnt d.likes iid : Int) + 1) ∨
      (d.likes.length = d2.likes.length + 1 ∧
        likeCnt d.likes iid = likeCnt d2.likes iid + 1 ∧
        v.idea.likes = (likeCnt d.likes iid : Int) - 1)) := by
  have hinv := reach_inv hr
  refine ⟨hinv.pairUnique, ?_, ?_⟩
  · intro i hi
    rw [hinv.counterEq i hi]
    exact Int.natCast_nonneg _
  · intro iid uid lid now d2 v h
    obtain ⟨i0, hf⟩ := toggleLike_find h
    obtain ⟨_, _, hc0, hbr⟩ := toggleLike_step hinv hf h
    rcases hbr with ⟨_, _, _, hlc, hlen, hlikes⟩ | ⟨_, _, _, hlc, hlen, hge, hlikes⟩
    · exact Or.inl ⟨hlen, hlc, by rw [hlikes, hc0]⟩
    · exact Or.inr ⟨hlen, hlc, by rw [hlikes, hc0]⟩

theorem c4_witness :
    pairCnt wIdeasDoc.likes "i1" "u1" ≤ 1 ∧ 0 ≤ wIdea0.likes := by
  have hr : ReachIdeas wIdeasDoc :=
    ReachIdeas.create emptyIdeasDoc "i1" "T" "D" "A" "January 01, 2024" ["go"]
      ReachIdeas.empty (by intro i hi; simp [emptyIdeasDoc] at hi)
  have h := c4_like_invariants wIdeasDoc hr
  exact ⟨h.1 "i1" "u1", h.2.1 wIdea0 (by decide)⟩

/-- C10: the like endpoint invoked without a user_id performs the
toggle for the literal user id anonymous, so on a reachable document
two successive parameterless like calls on the same present idea
cancel each other, leaving the stored likes counter at its original
value. -/
theorem c10_anonymous_double_toggle (d : IdeasDoc) (iid la na lb nb : String)
    (d1 d2 : IdeasDoc) (v1 v2 : IdeaView) (i0 : Idea)
    (hr : ReachIdeas d)
    (hf : findFirst (fun i => i.id == iid) d.ideas = some i0)
    (h1 : routerToggleLike d iid none la na = some (d1, v1))
    (h2 : routerToggleLike d1 iid none lb nb = some (d2, v2)) :
    routerToggleLike d iid none la na = toggleLike d iid "anonymous" la na ∧
    findFirst (fun i => i.id == iid) d2.ideas = some v2.idea ∧
    v2.idea.likes = i0.likes := by
  have e1 : routerToggleLike d iid none la na = toggleLike d iid "anonymous" la na := rfl
  have e2 : routerToggleLike d1 iid none lb nb = toggleLike d1 iid "anonymous" lb nb := rfl
  rw [e1] at h1
  rw [e2] at h2
  have h := toggle_twice_counter hr hf h1 h2
  exact ⟨rfl, h.1, h.2⟩

theorem c10_witness :
    routerToggleLike wIdeasDoc "i1" none "l1" "2024-01-02T00:00:00"
      = toggleLike wIdeasDoc "i1" "anonymous" "l1" "2024-01-02T00:00:00" ∧
    findFirst (fun i => i.id == "i1") wAnon2.1.ideas = some wAnon2.2.idea ∧
    wAnon2.2.idea.likes = wIdea0.likes :=
  c10_anonymous_double_toggle wIdeasDoc "i1" "l1" "2024-01-02T00:00:00"
    "l2" "2024-01-03T00:00:00" wAnon1.1 wAnon2.1 wAnon1.2 wAnon2.2 wIdea0
    (ReachIdeas.create emptyIdeasDoc "i1" "T" "D" "A" "January 01, 2024" ["go"]
      ReachIdeas.empty (by intro i hi; simp [emptyIdeasDoc] at hi))
    rfl rfl rfl

/-- C5: on a document whose idea identifiers are pairwise distinct,
delete_idea of a present id returns true and the saved document holds
no idea, no comment and no like carrying that id, while delete_idea
of an absent id returns false with the persisted document unchanged,
since save_data is never invoked on that path. -/
theorem c5_delete_idea_cascades (d : IdeasDoc) (iid : String)
    (hnd : (d.ideas.map Idea.id).Nodup) :
    ((∃ i ∈ d.ideas, i.id = iid) →
      (deleteIdea d iid).2 = true ∧
      (∀ i ∈ (deleteIdea d iid).1.ideas, i.id ≠ iid) ∧
      (∀ c ∈ (deleteIdea d iid).1.comments, c.idea_id ≠ iid) ∧
      (∀ l ∈ (deleteIdea d iid).1.likes, l.idea_id ≠ iid)) ∧
    ((∀ i ∈ d.ideas, i.id ≠ iid) → deleteIdea d iid = (d, false)) := by
  constructor
  · rintro ⟨i, hi, hieq⟩
    cases hpop : popFirst (fun j => j.id == iid) d.ideas with
    | none =>
      rw [popFirst_eq_none] at hpop
      have := hpop i hi
      rw [hieq] at this
      simp at this
    | some r =>
      obtain ⟨x, t⟩ := r
      obtain ⟨hpx, l1, l2, hl, ht, hpre⟩ := popFirst_eq_some hpop
      have hx : x.id = iid := eq_of_beq hpx
      have hsplit := nodup_map_split Idea.id (by rw [← hl]; exact hnd)
      simp only [deleteIdea, hpop]
      refine ⟨trivial, ?_, ?_, ?_⟩
      · intro j hj
        rw [ht] at hj
        rw [← hx]
        exact hsplit.1 j (List.mem_append.mp hj)
      · intro c hc
        have h2 := (List.mem_filter.mp hc).2
        intro he
        rw [he] at h2
        simp at h2
      · intro l hl2
        have h2 := (List.mem_filter.mp hl2).2
        intro he
        rw [he] at h2
        simp at h2
  · intro h
    have hpop : popFirst (fun j => j.id == iid) d.ideas = none := by
      rw [popFirst_eq_none]
      intro x hx
      cases he : x.id == iid with
      | false => rfl
      | true => exact absurd (eq_of_beq he) (h x hx)
    simp only [deleteIdea, hpop]

theorem c5_witness :
    (deleteIdea wIdeasDoc "i1").2 = true ∧
    deleteIdea wIdeasDoc "zzz" = (wIdeasDoc, false) :=
  ⟨((c5_delete_idea_cascades wIdeasDoc "i1" (by decide)).1
      ⟨wIdea0, by decide, by decide⟩).1,
   (c5_delete_idea_cascades wIdeasDoc "zzz" (by decide)).2 (by decide)⟩

/-- C6: an update of an existing post that supplies content and no
explicit excerpt stores, in the post saved back and returned, an
excerpt equal to the first 150 characters of the new content followed
by the three character marker when the content is longer than 150
characters, and the content verbatim with no marker when its length
is at most 150. -/
theorem c6_update_derives_excerpt (d : PostsDoc) (pid now c : String)
    (tt : Option String) (ts : Option (List String)) (ip : Option Bool)
    (d2 : PostsDoc) (p2 : Post)
    (h : updatePost d pid
      { title := tt, content := some c, excerpt := none, tags := ts, is_published := ip }
      now = some (d2, p2)) :
    findFirst (fun p => p.id == pid) d2.posts = some p2 ∧
    (150 < pyLen c → p2.excerpt = some (pySlice c 150 ++ "...")) ∧
    (pyLen c ≤ 150 → p2.excerpt = some c) := by
  rw [updatePost] at h
  cases hupd : updateFirst (fun p => p.id == pid)
      (fun p => applyPostUpdate p
        { title := tt, content := some c, excerpt := none, tags := ts, is_published := ip }
        now) d.posts with
  | none => rw [hupd] at h; cases h
  | some r =>
    obtain ⟨a, b, t⟩ := r
    rw [hupd] at h
    simp at h
    obtain ⟨hd2, hp2⟩ := h
    obtain ⟨hpa, hb, l1, l2, hl, ht, hpre⟩ := updateFirst_eq_some hupd
    have hexc : b.excerpt = some (deriveExcerpt c) := by
      rw [hb]
      exact applyPostUpdate_excerpt a tt ts ip c now
    refine ⟨?_, ?_, ?_⟩
    · rw [← hd2, ← hp2]
      show findFirst (fun p => p.id == pid) t = some b
      rw [ht, hb]
      refine findFirst_split hpre ?_
      rw [applyPostUpdate_id]
      exact hpa
    · intro hlong
      rw [← hp2, hexc, deriveExcerpt, if_pos hlong]
    · intro hshort
      rw [← hp2, hexc, deriveExcerpt, if_neg (by omega : ¬ pyLen c > 150)]
      have htake : pySlice c 150 = c := by
        rw [pySlice, List.take_of_length_le hshort]
      rw [htake]

theorem c6_witness :
    updatePost wDraftDoc "p1" wContentUpd "2024-01-02T00:00:00"
      = some (wContentRes.1, wContentRes.2) ∧
    pyLen "hi" ≤ 150 ∧
    wContentRes.2.excerpt = some "hi" := by
  have h := c6_update_derives_excerpt wDraftDoc "p1" "2024-01-02T00:00:00" "hi"
    none none none wContentRes.1 wContentRes.2 rfl
  exact ⟨rfl, by decide, h.2.2 (by decide)⟩

/-- C8: updating an existing idea merges only the supplied fields
over the stored record: an absent optional field leaves the stored
title, description or tags untouched, a field supplied as the empty
string or the empty list overwrites the stored value with that empty
value, and the id, author, date and likes fields, which the update
payload never carries, are unchanged in the stored and returned
idea; the other collections of the document are untouched. -/
theorem c8_idea_update_frame (d : IdeasDoc) (iid : String) (u : IdeaUpdate)
    (d2 : IdeasDoc) (v old : Idea)
    (hold : findFirst (fun i => i.id == iid) d.ideas = some old)
    (h : updateIdea d iid u = some (d2, v)) :
    v.title = u.title.getD old.title ∧
    v.description = u.description.getD old.description ∧
    v.tags = u.tags.getD old.tags ∧
    v.id = old.id ∧ v.author = old.author ∧ v.date = old.date ∧ v.likes = old.likes ∧
    findFirst (fun i => i.id == iid) d2.ideas = some v ∧
    d2.comments = d.comments ∧ d2.likes = d.likes := by
  rw [updateIdea] at h
  cases hupd : updateFirst (fun i => i.id == iid) (applyIdeaUpdate u) d.ideas with
  | none => rw [hupd] at h; cases h
  | some r =>
    obtain ⟨a, b, t⟩ := r
    rw [hupd] at h
    simp at h
    obtain ⟨hd2, hv⟩ := h
    obtain ⟨hpa, hb, l1, l2, hl, ht, hpre⟩ := updateFirst_eq_some hupd
    have ha : a = old := by
      have : findFirst (fun i => i.id == iid) d.ideas = some a := by
        rw [hl]
        exact findFirst_split hpre hpa
      rw [this] at hold
      exact Option.some_inj.mp hold
    subst ha
    have hv2 : v = applyIdeaUpdate u a := by rw [← hv, hb]
    subst hv2
    refine ⟨rfl, rfl, rfl, rfl, rfl, rfl, rfl, ?_, ?_, ?_⟩
    · rw [← hd2]
      show findFirst (fun i => i.id == iid) t = some (applyIdeaUpdate u a)
      rw [ht]
      refine findFirst_split hpre ?_
      show ((applyIdeaUpdate u a).id == iid) = true
      exact hpa
    · rw [← hd2]
    · rw [← hd2]

theorem c8_witness :
    updateIdea wIdeasDoc "i1" wIdeaUpd = some (wIdeaUpdRes.1, wIdeaUpdRes.2) ∧
    wIdeaUpdRes.2.title = wIdeaUpd.title.getD wIdea0.title ∧
    wIdeaUpdRes.2.likes = wIdea0.likes := by
  have h := c8_idea_update_frame wIdeasDoc "i1" wIdeaUpd wIdeaUpdRes.1 wIdeaUpdRes.2
    wIdea0 rfl rfl
  exact ⟨rfl, h.1, h.2.2.2.2.2.2.1⟩

/-- C9: the update and delete endpoints succeed on an existing but
unpublished post instead of treating it as missing: for a document
with pairwise distinct post identifiers holding an unpublished post,
update_post and the delete route both return a success outcome, while
the published-only refusal shows up exactly where the routes check
is_published: fetching the single post returns not-found, adding a
comment returns not-found, and the default listing filter only ever
returns published posts. -/
theorem c9_unpublished_update_delete (d : PostsDoc) (p : Post) (u : PostUpdate)
    (cc aa cid now : String)
    (hnd : (d.posts.map Post.id).Nodup)
    (hmem : p ∈ d.posts) (hunpub : p.is_published = false) :
    (updatePost d p.id u now).isSome = true ∧
    (routerDeletePost d p.id).isSome = true ∧
    routerGetPost d p.id = none ∧
    routerAddPostComment d p.id cc aa cid now = none ∧
    (∀ k m s t res, getPosts d k m s t true = Except.ok res →
      ∀ v ∈ res, v.post.is_published = true) := by
  have hfind : findFirst (fun q => q.id == p.id) d.posts = some p :=
    findFirst_key_self Post.id hnd hmem
  have hsg : storageGetPost d p.id = some
      { post := p,
        comments := d.post_comments.filter (fun c2 => c2.post_id == p.id),
        comments_count := (d.post_comments.filter (fun c2 => c2.post_id == p.id)).length } := by
    rw [storageGetPost, hfind]
  refine ⟨?_, ?_, ?_, ?_, ?_⟩
  · rw [updatePost]
    cases hupd : updateFirst (fun q => q.id == p.id)
        (fun q => applyPostUpdate q u now) d.posts with
    | none =>
      rw [updateFirst_eq_none] at hupd
      have h2 := hupd p hmem
      simp at h2
    | some r => rfl
  · rw [routerDeletePost, hsg]
    cases hpop : popFirst (fun q => q.id == p.id) d.posts with
    | none =>
      rw [popFirst_eq_none] at hpop
      have h2 := hpop p hmem
      simp at h2
    | some r =>
      simp only [deletePost, hpop]
      rfl
  · rw [routerGetPost, hsg]
    simp [hunpub]
  · rw [routerAddPostComment, hsg]
    simp [hunpub]
  · intro k m s t res hres v hv
    rw [getPosts] at hres
    cases hk : keyedViews ((d.posts.filter (fun q => postPasses q s t true)).map
        (fun q => PostView.mk q (postCommentCnt d.post_comments q.id))) with
    | error e => rw [hk] at hres; cases hres
    | ok pairs =>
      rw [hk] at hres
      simp at hres
      subst hres
      have hv2 : v ∈ ((sortKeyDesc pairs).map Prod.snd) :=
        List.mem_of_mem_drop (List.mem_of_mem_take hv)
      obtain ⟨pr, hpr, hpr2⟩ := List.mem_map.mp hv2
      have hin := keyedViews_ok_mem hk (mem_sortKeyDesc hpr)
      obtain ⟨q, hq, hq2⟩ := List.mem_map.mp hin
      have hqf := (List.mem_filter.mp hq).2
      have hpub := postPasses_published hqf
      rw [← hpr2, ← hq2]
      exact hpub

theorem c9_witness :
    (updatePost wDraftDoc "p1" (pubUpd true) "2024-01-02T00:00:00").isSome = true ∧
    (routerDeletePost wDraftDoc "p1").isSome = true ∧
    routerGetPost wDraftDoc "p1" = none := by
  have h := c9_unpublished_update_delete wDraftDoc wDraftPost (pubUpd true)
    "c" "a" "cid" "2024-01-02T00:00:00" (by decide) (by decide) (by decide)
  exact ⟨h.1, h.2.1, h.2.2.1⟩
